import Mathlib

/-!
Verification of the grimm-co/delta-debugging repository.

The repository ships example oracle scripts (`scripts/dd-*.py`) and gdb
helpers (`delta_debugging/gdb.py`, `delta_debugging/gdb-tracer.py`).  The
delta-debugging engine itself (`delta_debugging/DD.py`, imported by every
script) is not part of the source tree here, so the engine (`ddmin`, the
outcome cache, configuration splitting) is modelled from the specification
(§3, §4.2, §4.3); everything oracle- and gdb-side is embedded directly from
the Python source.
-/

namespace DeltaDebugging

/-- The three-valued test outcome of `DD` (spec §3 "Verdict"); the scripts
use `self.PASS` / `self.FAIL` / `self.UNRESOLVED`. -/
inductive Verdict where
  | PASS
  | FAIL
  | UNRESOLVED
deriving DecidableEq, Repr

/-! ## Configuration splitting and complements

Modelled from the spec: `delta_debugging/DD.py` is absent from `src/`;
spec §4.3 step 1 partitions the current configuration into `n` contiguous,
near-equal-size, non-overlapping subsequences preserving order. -/

/-- Modelled from the spec: split a configuration into `n` contiguous
near-equal-size pieces; each step takes `remaining.length / piecesLeft`
elements (`DD.py` is absent from `src/`). -/
def splitCfg {α : Type} (c : List α) : Nat → List (List α)
  | 0 => []
  | n + 1 => c.take (c.length / (n + 1)) :: splitCfg (c.drop (c.length / (n + 1))) n

/-- Modelled from the spec: for each piece, the complement configuration
`C − Δi` — the concatenation of every other piece, order preserved
(spec §4.3 step 3; `DD.py` is absent from `src/`). -/
def complementsOf {α : Type} : List (List α) → List (List α)
  | [] => []
  | p :: ps => ps.flatten :: (complementsOf ps).map (fun q => p ++ q)

/-! ## Left-to-right scanning for the first failing candidate

Spec §4.3 step 5: candidates are scanned left-to-right and the first FAIL
wins.  `scanFail` also returns the list of candidates actually handed to
the oracle (the prefix up to and including the first FAIL). -/

/-- Modelled from the spec: left-to-right scan for the first candidate the
oracle FAILs, recording every candidate actually tested (`DD.py` is absent
from `src/`). -/
def scanFail {α : Type} (test : List α → Verdict) :
    List (List α) → Option (List α) × List (List α)
  | [] => (none, [])
  | d :: ds =>
    if test d = Verdict.FAIL then (some d, [d])
    else ((scanFail test ds).1, d :: (scanFail test ds).2)

/-! ## The `ddmin` engine

Modelled from the spec: `delta_debugging/DD.py` is absent from `src/`.
Spec §4.3: granularity starts at 2 and is bounded above by `|C|`; subsets
are tried before complements, both left-to-right; a failing subset restarts
at granularity 2, a failing complement relaxes granularity to
`max (n − 1) 2`; otherwise granularity doubles (up to `|C|`) or, when it
already equals `|C|`, the search terminates.  UNRESOLVED counts as
"not FAIL" (step 6).  The recursion is driven by explicit fuel; the
measure `ddMeasure` strictly drops at every recursive call, and `ddmin`
supplies enough fuel for the whole run. -/

/-- Granularity clamped to the spec's bounds: at least 2, at most `|c|`
(spec §4.3: "integer granularity `n` (starts at 2, bounded above by
`|C|`)"). -/
def clampG (n len : Nat) : Nat := min (max n 2) len

/-- Modelled from the spec: one fueled run of the §4.3 state machine over
(configuration, granularity).  Returns the final configuration (`none` on
fuel exhaustion, which `ddmin` proves unreachable) together with the trace
of every candidate configuration handed to the test oracle, in test
order. -/
def ddworkFuel {α : Type} (test : List α → Verdict) :
    Nat → List α → Nat → Option (List α) × List (List α)
  | 0, _, _ => (none, [])
  | fuel + 1, c, n =>
    if c.length ≤ 1 then (some c, [])
    else
      let m := clampG n c.length
      let parts := splitCfg c m
      let s1 := scanFail test parts
      match s1.1 with
      | some d =>
        let r := ddworkFuel test fuel d 2
        (r.1, s1.2 ++ r.2)
      | none =>
        let s2 := scanFail test (complementsOf parts)
        match s2.1 with
        | some d =>
          let r := ddworkFuel test fuel d (max (m - 1) 2)
          (r.1, s1.2 ++ s2.2 ++ r.2)
        | none =>
          if m < c.length then
            let r := ddworkFuel test fuel c (min (2 * m) c.length)
            (r.1, s1.2 ++ s2.2 ++ r.2)
          else (some c, s1.2 ++ s2.2)

/-- Termination measure for the §4.3 state machine: the configuration
shrinks, or the (clamped) granularity grows toward `|c|`. -/
def ddMeasure {α : Type} (c : List α) (n : Nat) : Nat :=
  c.length * (c.length + 2) - clampG n c.length

/-- Fuel that strictly dominates the measure from any start. -/
def ddFuel {α : Type} (c : List α) : Nat := c.length * (c.length + 2) + 1

/-- Modelled from the spec: `ddmin` entry point — run the state machine
from the whole universe at granularity 2 (spec §4.3 / §6). -/
def ddminTrace {α : Type} (test : List α → Verdict) (c : List α) :
    Option (List α) × List (List α) :=
  ddworkFuel test (ddFuel c) c 2

/-- Modelled from the spec: the minimized configuration returned by
`ddmin` (spec §6: `ddmin(universe: Configuration) -> Configuration`). -/
def ddmin {α : Type} (test : List α → Verdict) (c : List α) : List α :=
  (ddminTrace test c).1.getD c

/-! ## The Outcome Cache

Modelled from the spec (§3, §4.2): a mapping from configuration identity to
verdict, optionally disabled (`cache_outcomes` — the scripts set
`self.cache_outcomes = 0`).  When caching is disabled, `lookup` always
misses and `record` is a no-op; on a miss the oracle is invoked and the
verdict recorded.  `DD.py`, which owns the cache, is absent from `src/`. -/

/-- The memo table of one run: configuration ↦ verdict. -/
abbrev Cache (α : Type) : Type := List (List α × Verdict)

/-- Modelled from the spec: `lookup(configuration) -> Verdict?`;
with caching disabled it always misses (spec §4.2). -/
def cacheLookup {α : Type} [DecidableEq α] (enabled : Bool) (cache : Cache α)
    (c : List α) : Option Verdict :=
  if enabled then
    (List.find? (fun e => decide (e.1 = c)) cache).map Prod.snd
  else none

/-- Modelled from the spec: `record(configuration, verdict)`;
with caching disabled it is a no-op (spec §4.2). -/
def cacheRecord {α : Type} (enabled : Bool) (cache : Cache α) (c : List α)
    (v : Verdict) : Cache α :=
  if enabled then (c, v) :: cache else cache

/-- Modelled from the spec: one oracle query through the cache — look the
candidate up, on a miss invoke the oracle and record the verdict
(spec §2 data flow, §4.2). -/
def cachedTest {α : Type} [DecidableEq α] (test : List α → Verdict)
    (enabled : Bool) (cache : Cache α) (c : List α) : Verdict × Cache α :=
  match cacheLookup enabled cache c with
  | some v => (v, cache)
  | none => (test c, cacheRecord enabled cache c (test c))

/-- A cache is valid when every recorded verdict is the oracle's verdict
(always true for a deterministic oracle within one run). -/
def cacheValid {α : Type} (test : List α → Verdict) (cache : Cache α) : Prop :=
  ∀ e ∈ cache, e.2 = test e.1

/-- Modelled from the spec: the left-to-right scan of §4.3 steps 2–3 with
every oracle query routed through the cache. -/
def scanFailC {α : Type} [DecidableEq α] (test : List α → Verdict)
    (enabled : Bool) : List (List α) → Cache α → Option (List α) × Cache α
  | [], cache => (none, cache)
  | d :: ds, cache =>
    let r := cachedTest test enabled cache d
    if r.1 = Verdict.FAIL then (some d, r.2)
    else scanFailC test enabled ds r.2

/-- Modelled from the spec: the fueled §4.3 state machine with the
Outcome Cache threaded through every oracle query. -/
def ddworkFuelC {α : Type} [DecidableEq α] (test : List α → Verdict)
    (enabled : Bool) :
    Nat → List α → Nat → Cache α → Option (List α) × Cache α
  | 0, _, _, cache => (none, cache)
  | fuel + 1, c, n, cache =>
    if c.length ≤ 1 then (some c, cache)
    else
      let m := clampG n c.length
      let parts := splitCfg c m
      let s1 := scanFailC test enabled parts cache
      match s1.1 with
      | some d => ddworkFuelC test enabled fuel d 2 s1.2
      | none =>
        let s2 := scanFailC test enabled (complementsOf parts) s1.2
        match s2.1 with
        | some d => ddworkFuelC test enabled fuel d (max (m - 1) 2) s2.2
        | none =>
          if m < c.length then
            ddworkFuelC test enabled fuel c (min (2 * m) c.length) s2.2
          else (some c, s2.2)

/-- Modelled from the spec: `ddmin` with the cache (enabled or disabled)
threaded through the whole run, starting from the empty cache a fresh run
owns (spec §3 "Outcome Cache", §5). -/
def ddminCached {α : Type} [DecidableEq α] (enabled : Bool)
    (test : List α → Verdict) (c : List α) : List α :=
  (ddworkFuelC test enabled (ddFuel c) c 2 []).1.getD c

/-! ## Character-list utilities mirroring the Python string operations -/

/-- Python `haystack.startswith(needle)` / list prefix test, character by
character. -/
def hasPrefixChars : List Char → List Char → Bool
  | [], _ => true
  | _ :: _, [] => false
  | a :: as, b :: bs => a = b && hasPrefixChars as bs

/-- Python's `needle in haystack` substring test. -/
def hasSubChars (needle : List Char) : List Char → Bool
  | [] => hasPrefixChars needle []
  | b :: bs => hasPrefixChars needle (b :: bs) || hasSubChars needle bs

/-- Python `str.strip()` whitespace set (space, tab, newline, carriage
return). -/
def isSpaceChar (c : Char) : Bool :=
  c = ' ' || c = '\t' || c = '\n' || c = '\r'

/-- Python `str.strip()`: drop leading and trailing whitespace. -/
def stripChars (s : List Char) : List Char :=
  ((s.dropWhile isSpaceChar).reverse.dropWhile isSpaceChar).reverse

/-- Helper for `split(" ")`: accumulate the current token (reversed). -/
def splitOnSpaceGo (cur : List Char) : List Char → List (List Char)
  | [] => [cur.reverse]
  | c :: rest =>
    if c = ' ' then cur.reverse :: splitOnSpaceGo [] rest
    else splitOnSpaceGo (c :: cur) rest

/-- Python `s.split(" ")`: split at every single space (consecutive spaces
produce empty tokens, `"".split(" ") == [""]`). -/
def splitOnSpace (s : List Char) : List (List Char) := splitOnSpaceGo [] s

/-- Python `int(s)`: strip whitespace, accept an optional sign followed by
at least one decimal digit. -/
def isDigitChar (c : Char) : Bool := '0' ≤ c && c ≤ '9'

def digitsToNat (ds : List Char) : Nat :=
  ds.foldl (fun a c => 10 * a + (c.toNat - '0'.toNat)) 0

def parseIntChars (s : List Char) : Option Int :=
  match stripChars s with
  | '-' :: ds =>
    if ds.isEmpty then none
    else if ds.all isDigitChar then some (-(digitsToNat ds : Int)) else none
  | '+' :: ds =>
    if ds.isEmpty then none
    else if ds.all isDigitChar then some (digitsToNat ds : Int) else none
  | ds =>
    if ds.isEmpty then none
    else if ds.all isDigitChar then some (digitsToNat ds : Int) else none

/-! ## Oracles embedded from the scripts

Each `_test` is embedded as a pure function of the observable behaviour of
its external collaborator (the gdb response text, the spawned process, the
socket), which is exactly the information the Python code branches on. -/

/-- The byte filter of `TestDD._test` (line 22 of
`scripts/dd-algorithm-example.py`): keep `'1'`, `'7'` and `'8'`. -/
def interestingByte (b : Char) : Bool := b = '1' || b = '7' || b = '8'

/-- Embeds `TestDD._test` from `scripts/dd-algorithm-example.py` (lines 18–29):
collect the payload bytes that are `'1'`, `'7'` or `'8'` into `found`;
FAIL iff each of the three occurs exactly once, PASS otherwise. -/
def testDD (deltas : List (Nat × Char)) : Verdict :=
  let found := (deltas.map Prod.snd).filter interestingByte
  if found.count '1' = 1 ∧ found.count '7' = 1 ∧ found.count '8' = 1 then
    Verdict.FAIL
  else Verdict.PASS

/-- The `__main__` ingestion loops: `dd-algorithm-example.py` line 36 maps
position `x` to delta `(x, input[x])` (indices from 0);
`dd-return-code.py` lines 101–106 and the other scripts start `index` at 1.
`toDeltas i s` enumerates `s` with consecutive indices from `i`. -/
def toDeltas {α : Type} : Nat → List α → List (Nat × α)
  | _, [] => []
  | i, c :: cs => (i, c) :: toDeltas (i + 1) cs

/-- Observable behaviour of the spawned target of `dd-return-code.py`:
either `Popen` raises (spawn failure), or the process runs and either
exits with a return code or never terminates. -/
inductive TargetBehavior where
  | exits (rc : Int)
  | runsForever
deriving DecidableEq, Repr

inductive SpawnResult where
  | failedToSpawn (msg : List Char)
  | spawned (behavior : TargetBehavior)
deriving DecidableEq, Repr

/-- Python exceptions that can escape the embedded functions. -/
inductive PyError where
  | osError (msg : List Char)
  | valueError
  | indexError
  | gdbException (response : List Char)
deriving DecidableEq, Repr

/-- Embeds `MyDD._test` from `scripts/dd-return-code.py` (lines 34–64): no
`try`/`except`, so a `Popen` spawn failure propagates as an exception;
`p.wait()` carries no timeout, so a target that never exits blocks `_test`
forever (no verdict, modelled as `none`); otherwise the verdict is PASS
iff the return code is 0 and FAIL for every other return code (the
255/69/73 special case is commented out in the source). -/
def returnCodeTest : SpawnResult → Except PyError (Option Verdict)
  | SpawnResult.failedToSpawn m => Except.error (PyError.osError m)
  | SpawnResult.spawned (TargetBehavior.exits rc) =>
    Except.ok (some (if rc = 0 then Verdict.PASS else Verdict.FAIL))
  | SpawnResult.spawned TargetBehavior.runsForever => Except.ok none

/-- Observable behaviour of the socket target of
`scripts/dd-socket-example.py`: either the connect/send path and the
`target_crashed` probe complete (giving the crash flag), or some socket
operation raises. -/
inductive SocketOutcome where
  | completed (crashed : Bool)
  | raised (msg : List Char)
deriving DecidableEq, Repr

/-- Embeds `MyDD._test` from `scripts/dd-socket-example.py` (lines 22–46): inside
`try`, FAIL if `target_crashed()`, else PASS; any exception is caught,
printed, and `_test` returns UNRESOLVED. -/
def socketDDTest : SocketOutcome → Verdict
  | SocketOutcome.completed true => Verdict.FAIL
  | SocketOutcome.completed false => Verdict.PASS
  | SocketOutcome.raised _ => Verdict.UNRESOLVED

/-- Embeds `GdbDD._test` from `scripts/dd-ccd2cue.py` (lines 49–87), as a function
of the gdb response text: PASS on "exited normally" / "exited with code",
FAIL on "SIGABRT", UNRESOLVED otherwise. -/
def ccd2cueTest (response : List Char) : Verdict :=
  if hasSubChars "exited normally".toList response ||
      hasSubChars "exited with code".toList response then Verdict.PASS
  else if hasSubChars "SIGABRT".toList response then Verdict.FAIL
  else Verdict.UNRESOLVED

/-- Embeds `GdbDD._test` from `scripts/dd-gdb-example.py` (lines 25–49), as a
function of the gdb response text: FAIL if the lower-cased response
contains "breakpoint", PASS if it contains "exited", UNRESOLVED
otherwise. -/
def gdbExampleTest (response : List Char) : Verdict :=
  let r := response.map Char.toLower
  if hasSubChars "breakpoint".toList r then Verdict.FAIL
  else if hasSubChars "exited".toList r then Verdict.PASS
  else Verdict.UNRESOLVED

/-! ## The ccd2cue watchdog thread (`GdbDD.wait_for_gdb`, lines 33–47) -/

/-- State of the gdb process over the watchdog's 5-second window:
`gdb.p` is `none` after `quit()`, otherwise the process either exits
within the timeout or is still running when it expires. -/
inductive GdbProcState where
  | exited (rc : Int)
  | hungBeyondTimeout
deriving DecidableEq, Repr

inductive WatchdogOutcome where
  | noProcess
  | sawExit (rc : Int)
  | gaveUp
  | killedGdb
deriving DecidableEq, Repr

/-- Embeds `GdbDD.wait_for_gdb` from `scripts/dd-ccd2cue.py` (lines 33–47):
`if gdb.p:` guards the whole body; `gdb.p.wait(timeout=5)` either returns
with the return code set (so the `returncode is None` kill guard is
false), or raises `TimeoutExpired`, which the `except` clause swallows
with `pass` — control never reaches `gdb.p.kill()` on the timeout path, so
the hung process is left running. -/
def waitForGdb : Option GdbProcState → WatchdogOutcome
  | none => WatchdogOutcome.noProcess
  | some (GdbProcState.exited rc) => WatchdogOutcome.sawExit rc
  | some GdbProcState.hungBeyondTimeout => WatchdogOutcome.gaveUp

/-! ## `Gdb.set_breakpoint` from `delta_debugging/gdb.py` (lines 101–122) -/

/-- Embeds `Gdb.set_breakpoint`, as a function of the gdb response to `b symbol`:
if the response does not start with "Breakpoint ", raise
`GdbException(response)`; else split the stripped response on single
spaces, parse token 2 with `int(...)` (a non-integer raises `ValueError`),
take token 4 as the address (a missing token raises `IndexError`), and
return the pair. -/
def set_breakpoint (response : List Char) : Except PyError (Int × List Char) :=
  if hasPrefixChars "Breakpoint ".toList response then
    let parts := splitOnSpace (stripChars response)
    match parts[1]? with
    | none => Except.error PyError.indexError
    | some t1 =>
      match parseIntChars t1 with
      | none => Except.error PyError.valueError
      | some num =>
        match parts[3]? with
        | none => Except.error PyError.indexError
        | some addr => Except.ok (num, addr)
  else Except.error (PyError.gdbException response)

/-! ## `GdbTracer` range consolidation (`delta_debugging/gdb-tracer.py`) -/

/-- The loop body of `GdbTracer._consolidate_target_ranges` (lines 63–85),
with the `previous_start`/`previous_end` state made explicit: on a
non-contiguous range (`start != previous_end`) the previous range is
emitted unless degenerate (`previous_start == previous_end`); on a
contiguous range only `previous_end` is advanced; the final previous range
is always appended. -/
def consolidateGo (ps pe : Nat) : List (Nat × Nat) → List (Nat × Nat)
  | [] => [(ps, pe)]
  | (s, e) :: rest =>
    if s ≠ pe then
      (if ps ≠ pe then [(ps, pe)] else []) ++ consolidateGo s e rest
    else consolidateGo ps e rest

/-- Embeds `GdbTracer._consolidate_target_ranges`: the loop starts with
`previous_start = previous_end = 0`. -/
def consolidate (rs : List (Nat × Nat)) : List (Nat × Nat) :=
  consolidateGo 0 0 rs

/-- Embeds `GdbTracer._we_are_not_in_kansas_anymore` (lines 193–206): scan the
target ranges; `False` (we are in the target) as soon as
`start <= pc <= end`, `True` otherwise. -/
def notInKansas : List (Nat × Nat) → Nat → Bool
  | [], _ => true
  | (s, e) :: rest, pc =>
    if s ≤ pc ∧ pc ≤ e then false else notInKansas rest pc

/-- Does `pc` lie in one of the ranges (the complement of `notInKansas`). -/
def InTarget (rs : List (Nat × Nat)) (pc : Nat) : Prop :=
  ∃ r ∈ rs, r.1 ≤ pc ∧ pc ≤ r.2

/-- Well-formedness of a range list as gdb reports it for the loaded
executable: each range is nondegenerate (`start < end`) and each start is
at least the previous end. -/
def wfChain : Nat → List (Nat × Nat) → Bool
  | _, [] => true
  | pe, (s, e) :: rest => decide (pe ≤ s) && decide (s < e) && wfChain e rest

/-- An oracle violating the documented precondition that the empty
configuration must PASS (spec §4.1): it FAILs everything. -/
def constFailOracle : List Nat → Verdict := fun _ => Verdict.FAIL

/-- Strictly ascending delta indices (spec §3 "Configuration": ascending
index order, no duplicates). -/
abbrev ascIdx {α : Type} (c : List (Nat × α)) : Prop :=
  c.Pairwise (fun a b => a.1 < b.1)

theorem splitCfg_succ {α : Type} (c : List α) (n : Nat) :
    splitCfg c (n + 1) =
      c.take (c.length / (n + 1)) :: splitCfg (c.drop (c.length / (n + 1))) n := rfl

theorem splitCfg_length {α : Type} (c : List α) (n : Nat) :
    (splitCfg c n).length = n := by
  induction n generalizing c with
  | zero => rfl
  | succ n ih => rw [splitCfg_succ, List.length_cons, ih]

theorem splitCfg_flatten {α : Type} (c : List α) (n : Nat) (hn : 1 ≤ n) :
    (splitCfg c n).flatten = c := by
  induction n generalizing c with
  | zero => omega
  | succ n ih =>
    cases n with
    | zero => simp [splitCfg]
    | succ m =>
      rw [splitCfg_succ, List.flatten_cons, ih _ (by omega), List.take_append_drop]

theorem splitCfg_sublist {α : Type} {n : Nat} :
    ∀ {c d : List α}, d ∈ splitCfg c n → d.Sublist c := by
  induction n with
  | zero => intro c d hd; simp [splitCfg] at hd
  | succ n ih =>
    intro c d hd
    rw [splitCfg_succ, List.mem_cons] at hd
    rcases hd with rfl | hd
    · exact List.take_sublist _ _
    · exact (ih hd).trans (List.drop_sublist _ _)

theorem splitCfg_nonempty {α : Type} {n : Nat} :
    ∀ {c d : List α}, n ≤ c.length → d ∈ splitCfg c n → d ≠ [] := by
  induction n with
  | zero => intro c d _ hd; simp [splitCfg] at hd
  | succ n ih =>
    intro c d hn hd
    rw [splitCfg_succ, List.mem_cons] at hd
    have hpos : 1 ≤ c.length / (n + 1) := by
      rw [Nat.le_div_iff_mul_le (by omega)]; omega
    rcases hd with rfl | hd
    · intro h
      rw [List.take_eq_nil_iff] at h
      rcases h with h | h
      · omega
      · rw [h] at hn; simp at hn
    · refine ih ?_ hd
      have hmul : c.length ≤ (n + 1) * (c.length - n) := by
        obtain ⟨k, hk⟩ : ∃ k, c.length = n + 1 + k := ⟨c.length - (n + 1), by omega⟩
        have he : (n + 1) * (n + 1 + k - n) = (n + 1) * (k + 1) := by
          congr 1; omega
        rw [hk, he]
        nlinarith
      have hdropped : c.length / (n + 1) ≤ c.length - n := by
        calc c.length / (n + 1) ≤ ((n + 1) * (c.length - n)) / (n + 1) :=
              Nat.div_le_div_right hmul
          _ = c.length - n := Nat.mul_div_cancel_left _ (by omega)
      rw [List.length_drop]
      omega

/-- At granularity `|c|` the split degenerates into singleton pieces. -/
theorem splitCfg_singletons {α : Type} (c : List α) :
    splitCfg c c.length = c.map (fun x => [x]) := by
  induction c with
  | nil => rfl
  | cons x xs ih =>
    simp only [List.length_cons, splitCfg, List.map_cons]
    have hdiv : (x :: xs).length / (xs.length + 1) = 1 := by
      simp only [List.length_cons]
      exact Nat.div_self (by omega)
    simp only [List.length_cons] at hdiv
    rw [hdiv]
    simp [ih]

theorem flatten_map_singleton {α : Type} (c : List α) :
    (c.map (fun x => [x])).flatten = c := by
  induction c with
  | nil => rfl
  | cons x xs ih => simp [ih]

/-- The complements of the singleton split are exactly the one-element
deletions `c.eraseIdx i`. -/
theorem complementsOf_singletons {α : Type} (c : List α) :
    complementsOf (c.map (fun x => [x])) =
      (List.range c.length).map (fun i => c.eraseIdx i) := by
  induction c with
  | nil => rfl
  | cons x xs ih =>
    simp only [List.map_cons, complementsOf, flatten_map_singleton, List.length_cons,
      List.range_succ_eq_map, List.map_cons, ih, List.map_map]
    constructor

theorem complementsOf_sublist {α : Type} {ps : List (List α)} :
    ∀ {d : List α}, d ∈ complementsOf ps → d.Sublist ps.flatten := by
  induction ps with
  | nil => intro d hd; simp [complementsOf] at hd
  | cons p ps ih =>
    intro d hd
    simp only [complementsOf, List.mem_cons, List.mem_map] at hd
    rcases hd with rfl | ⟨q, hq, rfl⟩
    · simp only [List.flatten_cons]
      exact List.sublist_append_right p ps.flatten
    · simpa using (ih hq).append_left p

theorem complementsOf_balance {α : Type} {ps : List (List α)} :
    ∀ {d : List α}, d ∈ complementsOf ps →
      ∃ p ∈ ps, d.length + p.length = ps.flatten.length := by
  induction ps with
  | nil => intro d hd; simp [complementsOf] at hd
  | cons p ps ih =>
    intro d hd
    simp only [complementsOf, List.mem_cons, List.mem_map] at hd
    rcases hd with rfl | ⟨q, hq, rfl⟩
    · exact ⟨p, List.mem_cons_self p ps, by simp [Nat.add_comm]⟩
    · obtain ⟨r, hr, hlen⟩ := ih hq
      refine ⟨r, List.mem_cons_of_mem p hr, ?_⟩
      simp only [List.length_append, List.flatten_cons]
      omega

theorem scanFail_some {α : Type} {test : List α → Verdict} {l : List (List α)}
    {d : List α} (h : (scanFail test l).1 = some d) :
    test d = Verdict.FAIL ∧ d ∈ l := by
  induction l with
  | nil => simp [scanFail] at h
  | cons p ps ih =>
    by_cases hp : test p = Verdict.FAIL
    · simp only [scanFail, if_pos hp] at h
      cases h
      exact ⟨hp, List.mem_cons_self _ _⟩
    · simp only [scanFail, if_neg hp] at h
      obtain ⟨hfail, hmem⟩ := ih h
      exact ⟨hfail, List.mem_cons_of_mem _ hmem⟩

theorem scanFail_none {α : Type} {test : List α → Verdict} {l : List (List α)}
    (h : (scanFail test l).1 = none) : ∀ d ∈ l, test d ≠ Verdict.FAIL := by
  induction l with
  | nil => simp
  | cons p ps ih =>
    by_cases hp : test p = Verdict.FAIL
    · simp [scanFail, if_pos hp] at h
    · simp only [scanFail, if_neg hp] at h
      intro d hd
      rcases List.mem_cons.mp hd with rfl | hd
      · exact hp
      · exact ih h d hd

theorem scanFail_trace_mem {α : Type} {test : List α → Verdict} {l : List (List α)}
    {t : List α} (h : t ∈ (scanFail test l).2) : t ∈ l := by
  induction l with
  | nil => simp [scanFail] at h
  | cons p ps ih =>
    by_cases hp : test p = Verdict.FAIL
    · simp only [scanFail, if_pos hp, List.mem_singleton] at h
      exact h ▸ List.mem_cons_self _ _
    · simp only [scanFail, if_neg hp, List.mem_cons] at h
      rcases h with rfl | h
      · exact List.mem_cons_self _ _
      · exact List.mem_cons_of_mem _ (ih h)

theorem clampG_le {n len : Nat} : clampG n len ≤ len := Nat.min_le_right _ _

theorem clampG_ge (n : Nat) {len : Nat} (h : 2 ≤ len) : 2 ≤ clampG n len := by
  unfold clampG; omega

/-- Measure arithmetic: any strict shrink of the configuration drops the
measure, whatever the granularities. -/
theorem ddMeasure_shrink {α : Type} {c d : List α} (n n' : Nat)
    (hlt : d.length < c.length) (h2 : 2 ≤ c.length) :
    ddMeasure d n' < ddMeasure c n := by
  unfold ddMeasure
  have hcl : clampG n c.length ≤ c.length := clampG_le
  have h1 : d.length * (d.length + 2) + c.length ≤
      (c.length - 1) * ((c.length - 1) + 2) + c.length := by
    have := Nat.mul_le_mul (Nat.le_sub_one_of_lt hlt)
      (by omega : d.length + 2 ≤ (c.length - 1) + 2)
    omega
  obtain ⟨b, hb⟩ : ∃ b, c.length = b + 2 := ⟨c.length - 2, by omega⟩
  rw [hb] at h1 hcl ⊢
  have e1 : (b + 2 - 1) * ((b + 2 - 1) + 2) = b * b + 4 * b + 3 := by
    have hb1 : b + 2 - 1 = b + 1 := rfl
    rw [hb1]; ring
  have e2 : (b + 2) * ((b + 2) + 2) = b * b + 6 * b + 8 := by ring
  rw [e1] at h1
  rw [e2]
  omega

/-- Measure arithmetic: growing the clamped granularity on an unchanged
configuration drops the measure. -/
theorem ddMeasure_grow {α : Type} {c : List α} (n n' : Nat)
    (h2 : 2 ≤ c.length) (hgt : clampG n c.length < clampG n' c.length) :
    ddMeasure c n' < ddMeasure c n := by
  unfold ddMeasure
  have hle : clampG n' c.length ≤ c.length := clampG_le
  have hlen : c.length ≤ c.length * (c.length + 2) := by
    calc c.length = c.length * 1 := (Nat.mul_one _).symm
      _ ≤ c.length * (c.length + 2) := Nat.mul_le_mul_left _ (by omega)
  omega

/-! Step lemmas exposing one unfolding of `ddworkFuel` per branch of the
§4.3 state machine. -/

theorem ddworkFuel_base {α : Type} (test : List α → Verdict) (fuel : Nat)
    {c : List α} (n : Nat) (h : c.length ≤ 1) :
    ddworkFuel test (fuel + 1) c n = (some c, []) := by
  simp only [ddworkFuel, if_pos h]

theorem ddworkFuel_subset {α : Type} (test : List α → Verdict) (fuel : Nat)
    {c d : List α} (n : Nat) (h : ¬ c.length ≤ 1)
    (hs : (scanFail test (splitCfg c (clampG n c.length))).1 = some d) :
    ddworkFuel test (fuel + 1) c n =
      ((ddworkFuel test fuel d 2).1,
        (scanFail test (splitCfg c (clampG n c.length))).2 ++
          (ddworkFuel test fuel d 2).2) := by
  simp only [ddworkFuel, if_neg h, hs]

theorem ddworkFuel_complement {α : Type} (test : List α → Verdict) (fuel : Nat)
    {c d : List α} (n : Nat) (h : ¬ c.length ≤ 1)
    (hs1 : (scanFail test (splitCfg c (clampG n c.length))).1 = none)
    (hs2 : (scanFail test (complementsOf (splitCfg c (clampG n c.length)))).1 =
      some d) :
    ddworkFuel test (fuel + 1) c n =
      ((ddworkFuel test fuel d (max (clampG n c.length - 1) 2)).1,
        (scanFail test (splitCfg c (clampG n c.length))).2 ++
          (scanFail test (complementsOf (splitCfg c (clampG n c.length)))).2 ++
          (ddworkFuel test fuel d (max (clampG n c.length - 1) 2)).2) := by
  simp only [ddworkFuel, if_neg h, hs1, hs2]

theorem ddworkFuel_grow {α : Type} (test : List α → Verdict) (fuel : Nat)
    {c : List α} (n : Nat) (h : ¬ c.length ≤ 1)
    (hs1 : (scanFail test (splitCfg c (clampG n c.length))).1 = none)
    (hs2 : (scanFail test (complementsOf (splitCfg c (clampG n c.length)))).1 =
      none)
    (hlt : clampG n c.length < c.length) :
    ddworkFuel test (fuel + 1) c n =
      ((ddworkFuel test fuel c (min (2 * clampG n c.length) c.length)).1,
        (scanFail test (splitCfg c (clampG n c.length))).2 ++
          (scanFail test (complementsOf (splitCfg c (clampG n c.length)))).2 ++
          (ddworkFuel test fuel c (min (2 * clampG n c.length) c.length)).2) := by
  simp only [ddworkFuel, if_neg h, hs1, hs2, if_pos hlt]

theorem ddworkFuel_done {α : Type} (test : List α → Verdict) (fuel : Nat)
    {c : List α} (n : Nat) (h : ¬ c.length ≤ 1)
    (hs1 : (scanFail test (splitCfg c (clampG n c.length))).1 = none)
    (hs2 : (scanFail test (complementsOf (splitCfg c (clampG n c.length)))).1 =
      none)
    (hge : ¬ clampG n c.length < c.length) :
    ddworkFuel test (fuel + 1) c n =
      (some c,
        (scanFail test (splitCfg c (clampG n c.length))).2 ++
          (scanFail test (complementsOf (splitCfg c (clampG n c.length)))).2) := by
  simp only [ddworkFuel, if_neg h, hs1, hs2, if_neg hge]

theorem length_le_sum {l : List Nat} (h : ∀ y ∈ l, 1 ≤ y) : l.length ≤ l.sum := by
  induction l with
  | nil => simp
  | cons y l ih =>
    have hy := h y (List.mem_cons_self _ _)
    have := ih (fun z hz => h z (List.mem_cons_of_mem _ hz))
    simp only [List.length_cons, List.sum_cons]
    omega

theorem mem_add_length_le_sum {l : List Nat} {x : Nat} (hx : x ∈ l)
    (h : ∀ y ∈ l, 1 ≤ y) : x + l.length ≤ l.sum + 1 := by
  induction l with
  | nil => cases hx
  | cons y l ih =>
    simp only [List.length_cons, List.sum_cons]
    rcases List.mem_cons.mp hx with rfl | hx
    · have := length_le_sum (fun z hz => h z (List.mem_cons_of_mem _ hz))
      omega
    · have hy := h y (List.mem_cons_self _ _)
      have := ih hx (fun z hz => h z (List.mem_cons_of_mem _ hz))
      omega

/-- A piece of a proper split (granularity ≥ 2) is strictly shorter than
the configuration it splits. -/
theorem mem_part_length_lt {α : Type} {c d : List α} {m : Nat}
    (h2 : 2 ≤ m) (hm : m ≤ c.length) (hd : d ∈ splitCfg c m) :
    d.length < c.length := by
  have hflat : (splitCfg c m).flatten = c := splitCfg_flatten c m (by omega)
  have hsum : c.length = ((splitCfg c m).map List.length).sum := by
    conv_lhs => rw [← hflat]
    exact List.length_flatten _
  have hx : d.length ∈ (splitCfg c m).map List.length :=
    List.mem_map.mpr ⟨d, hd, rfl⟩
  have hone : ∀ y ∈ (splitCfg c m).map List.length, 1 ≤ y := by
    intro y hy
    obtain ⟨p, hp, rfl⟩ := List.mem_map.mp hy
    have := splitCfg_nonempty hm hp
    cases p with
    | nil => simp at this
    | cons _ _ => simp
  have := mem_add_length_le_sum hx hone
  rw [List.length_map, splitCfg_length] at this
  omega

/-- A complement of a proper split is strictly shorter than the
configuration. -/
theorem mem_complement_length_lt {α : Type} {c d : List α} {m : Nat}
    (h2 : 2 ≤ m) (hm : m ≤ c.length) (hd : d ∈ complementsOf (splitCfg c m)) :
    d.length < c.length := by
  have hflat : (splitCfg c m).flatten = c := splitCfg_flatten c m (by omega)
  obtain ⟨p, hp, hbal⟩ := complementsOf_balance hd
  have hpne : p ≠ [] := splitCfg_nonempty hm hp
  have hppos : 1 ≤ p.length := by
    cases p with
    | nil => exact absurd rfl hpne
    | cons _ _ => simp
  rw [hflat] at hbal
  omega

/-- Main invariant of the §4.3 state machine: started on a failing
configuration with enough fuel, the run completes and returns a failing
sub-configuration that is 1-minimal provided the empty configuration does
not fail. -/
theorem ddwork_spec {α : Type} (test : List α → Verdict)
    (h0 : test [] ≠ Verdict.FAIL) :
    ∀ (fuel : Nat) (c : List α) (n : Nat),
      ddMeasure c n < fuel → test c = Verdict.FAIL →
      ∃ R, (ddworkFuel test fuel c n).1 = some R ∧ R.Sublist c ∧
        test R = Verdict.FAIL ∧
        ∀ i, i < R.length → test (R.eraseIdx i) ≠ Verdict.FAIL := by
  intro fuel
  induction fuel with
  | zero => intro c n hμ; omega
  | succ fuel ih =>
    intro c n hμ hc
    by_cases hlen : c.length ≤ 1
    · refine ⟨c, ?_, List.Sublist.refl c, hc, ?_⟩
      · rw [ddworkFuel_base test fuel n hlen]
      · intro i hi
        cases c with
        | nil => simp at hi
        | cons x xs =>
          cases xs with
          | cons _ _ => simp at hlen
          | nil =>
            have hi0 : i = 0 := by simpa using hi
            subst hi0
            simpa using h0
    · have h2 : 2 ≤ c.length := by omega
      have hm2 : 2 ≤ clampG n c.length := clampG_ge n h2
      have hmle : clampG n c.length ≤ c.length := clampG_le
      cases hs1 : (scanFail test (splitCfg c (clampG n c.length))).1 with
      | some d =>
        obtain ⟨hdF, hdmem⟩ := scanFail_some hs1
        have hdsub : d.Sublist c := splitCfg_sublist hdmem
        have hdlt : d.length < c.length := mem_part_length_lt hm2 hmle hdmem
        have hμ' : ddMeasure d 2 < fuel := by
          have := ddMeasure_shrink n 2 hdlt h2
          omega
        obtain ⟨R, hR1, hRsub, hRF, hRmin⟩ := ih d 2 hμ' hdF
        refine ⟨R, ?_, hRsub.trans hdsub, hRF, hRmin⟩
        rw [ddworkFuel_subset test fuel n hlen hs1]
        exact hR1
      | none =>
        cases hs2 : (scanFail test (complementsOf (splitCfg c (clampG n c.length)))).1 with
        | some d =>
          obtain ⟨hdF, hdmem⟩ := scanFail_some hs2
          have hflat : (splitCfg c (clampG n c.length)).flatten = c :=
            splitCfg_flatten c _ (by omega)
          have hdsub : d.Sublist c := hflat ▸ complementsOf_sublist hdmem
          have hdlt : d.length < c.length := mem_complement_length_lt hm2 hmle hdmem
          have hμ' : ddMeasure d (max (clampG n c.length - 1) 2) < fuel := by
            have := ddMeasure_shrink n (max (clampG n c.length - 1) 2) hdlt h2
            omega
          obtain ⟨R, hR1, hRsub, hRF, hRmin⟩ := ih d _ hμ' hdF
          refine ⟨R, ?_, hRsub.trans hdsub, hRF, hRmin⟩
          rw [ddworkFuel_complement test fuel n hlen hs1 hs2]
          exact hR1
        | none =>
          by_cases hlt : clampG n c.length < c.length
          · have hclamp : clampG (min (2 * clampG n c.length) c.length) c.length =
                min (2 * clampG n c.length) c.length := by
              unfold clampG
              omega
            have hμ' : ddMeasure c (min (2 * clampG n c.length) c.length) < fuel := by
              have := ddMeasure_grow n (min (2 * clampG n c.length) c.length)
                h2 (by rw [hclamp]; omega)
              omega
            obtain ⟨R, hR1, hRsub, hRF, hRmin⟩ := ih c _ hμ' hc
            refine ⟨R, ?_, hRsub, hRF, hRmin⟩
            rw [ddworkFuel_grow test fuel n hlen hs1 hs2 hlt]
            exact hR1
          · refine ⟨c, ?_, List.Sublist.refl c, hc, ?_⟩
            · rw [ddworkFuel_done test fuel n hlen hs1 hs2 hlt]
            · intro i hi
              have hmeq : clampG n c.length = c.length := by omega
              have hcomp : complementsOf (splitCfg c (clampG n c.length)) =
                  (List.range c.length).map (fun j => c.eraseIdx j) := by
                rw [hmeq, splitCfg_singletons, complementsOf_singletons]
              refine scanFail_none hs2 (c.eraseIdx i) ?_
              rw [hcomp]
              exact List.mem_map.mpr ⟨i, List.mem_range.mpr hi, rfl⟩

/-- End-to-end form of the invariant for the `ddmin` entry point. -/
theorem ddmin_spec {α : Type} (test : List α → Verdict) (U : List α)
    (hU : test U = Verdict.FAIL) (h0 : test [] ≠ Verdict.FAIL) :
    (ddmin test U).Sublist U ∧ test (ddmin test U) = Verdict.FAIL ∧
    ∀ i, i < (ddmin test U).length →
      test ((ddmin test U).eraseIdx i) ≠ Verdict.FAIL := by
  have hμ : ddMeasure U 2 < ddFuel U := by
    unfold ddMeasure ddFuel
    omega
  obtain ⟨R, hR1, hRsub, hRF, hRmin⟩ := ddwork_spec test h0 (ddFuel U) U 2 hμ hU
  have hdd : ddmin test U = R := by
    unfold ddmin ddminTrace
    rw [hR1]
    rfl
  rw [hdd]
  exact ⟨hRsub, hRF, hRmin⟩

/-- Every candidate configuration handed to the oracle, and the returned
configuration, is a sublist (order-preserving subset) of the configuration
the run started from. -/
theorem ddwork_sublists {α : Type} (test : List α → Verdict) :
    ∀ (fuel : Nat) (c : List α) (n : Nat),
      (∀ R, (ddworkFuel test fuel c n).1 = some R → R.Sublist c) ∧
      (∀ t ∈ (ddworkFuel test fuel c n).2, t.Sublist c) := by
  intro fuel
  induction fuel with
  | zero =>
    intro c n
    exact ⟨fun R hR => by simp [ddworkFuel] at hR,
      fun t ht => by simp [ddworkFuel] at ht⟩
  | succ fuel ih =>
    intro c n
    by_cases hlen : c.length ≤ 1
    · rw [ddworkFuel_base test fuel n hlen]
      exact ⟨fun R hR => by cases hR; exact List.Sublist.refl c,
        fun t ht => by simp at ht⟩
    · have hparts_sub : ∀ t ∈ (scanFail test (splitCfg c (clampG n c.length))).2,
          t.Sublist c := fun t ht => splitCfg_sublist (scanFail_trace_mem ht)
      have hflat : (splitCfg c (clampG n c.length)).flatten = c :=
        splitCfg_flatten c _ (by have := clampG_ge n (by omega : 2 ≤ c.length); omega)
      have hcomp_sub :
          ∀ t ∈ (scanFail test (complementsOf (splitCfg c (clampG n c.length)))).2,
          t.Sublist c :=
        fun t ht => hflat ▸ complementsOf_sublist (scanFail_trace_mem ht)
      cases hs1 : (scanFail test (splitCfg c (clampG n c.length))).1 with
      | some d =>
        have hdsub : d.Sublist c := splitCfg_sublist (scanFail_some hs1).2
        rw [ddworkFuel_subset test fuel n hlen hs1]
        refine ⟨fun R hR => ((ih d 2).1 R hR).trans hdsub, fun t ht => ?_⟩
        rcases List.mem_append.mp ht with ht | ht
        · exact hparts_sub t ht
        · exact ((ih d 2).2 t ht).trans hdsub
      | none =>
        cases hs2 : (scanFail test (complementsOf (splitCfg c (clampG n c.length)))).1 with
        | some d =>
          have hdsub : d.Sublist c := hflat ▸ complementsOf_sublist (scanFail_some hs2).2
          rw [ddworkFuel_complement test fuel n hlen hs1 hs2]
          refine ⟨fun R hR => ((ih d _).1 R hR).trans hdsub, fun t ht => ?_⟩
          rcases List.mem_append.mp ht with ht | ht
          · rcases List.mem_append.mp ht with ht | ht
            · exact hparts_sub t ht
            · exact hcomp_sub t ht
          · exact ((ih d _).2 t ht).trans hdsub
        | none =>
          by_cases hlt : clampG n c.length < c.length
          · rw [ddworkFuel_grow test fuel n hlen hs1 hs2 hlt]
            refine ⟨fun R hR => (ih c _).1 R hR, fun t ht => ?_⟩
            rcases List.mem_append.mp ht with ht | ht
            · rcases List.mem_append.mp ht with ht | ht
              · exact hparts_sub t ht
              · exact hcomp_sub t ht
            · exact (ih c _).2 t ht
          · rw [ddworkFuel_done test fuel n hlen hs1 hs2 hlt]
            refine ⟨fun R hR => by cases hR; exact List.Sublist.refl c, fun t ht => ?_⟩
            rcases List.mem_append.mp ht with ht | ht
            · exact hparts_sub t ht
            · exact hcomp_sub t ht

/-- Entry-point form: every tested candidate and the result of `ddmin`
are sublists of the ingested universe. -/
theorem ddmin_sublists {α : Type} (test : List α → Verdict) (U : List α) :
    (∀ t ∈ (ddminTrace test U).2, t.Sublist U) ∧ (ddmin test U).Sublist U := by
  refine ⟨(ddwork_sublists test (ddFuel U) U 2).2, ?_⟩
  unfold ddmin
  cases hR : (ddminTrace test U).1 with
  | none => exact List.Sublist.refl U
  | some R =>
    have := (ddwork_sublists test (ddFuel U) U 2).1 R hR
    simpa using this

theorem cachedTest_eq {α : Type} [DecidableEq α] {test : List α → Verdict}
    {enabled : Bool} {cache : Cache α} (hv : cacheValid test cache)
    (c : List α) :
    (cachedTest test enabled cache c).1 = test c ∧
      cacheValid test (cachedTest test enabled cache c).2 := by
  rcases hl : cacheLookup enabled cache c with _ | v
  · simp only [cachedTest, hl]
    refine ⟨by simp, ?_⟩
    unfold cacheRecord
    cases enabled with
    | false => simpa using hv
    | true =>
      simp only [if_pos rfl]
      intro e he
      rcases List.mem_cons.mp he with rfl | he
      · rfl
      · exact hv e he
  · simp only [cachedTest, hl]
    refine ⟨?_, hv⟩
    cases enabled with
    | false => simp [cacheLookup] at hl
    | true =>
      rcases hf : List.find? (fun e => decide (e.1 = c)) cache with _ | e
      · unfold cacheLookup at hl
        rw [hf] at hl
        simp at hl
      · unfold cacheLookup at hl
        rw [hf] at hl
        simp only [if_pos rfl, Option.map_some'] at hl
        cases hl
        have hmem := List.mem_of_find?_eq_some hf
        have hkey := List.find?_some hf
        simp only [decide_eq_true_eq] at hkey
        rw [hv e hmem, hkey]

theorem scanFail_cons {α : Type} (test : List α → Verdict) (d : List α)
    (ds : List (List α)) :
    scanFail test (d :: ds) =
      if test d = Verdict.FAIL then (some d, [d])
      else ((scanFail test ds).1, d :: (scanFail test ds).2) := rfl

theorem scanFailC_cons {α : Type} [DecidableEq α] (test : List α → Verdict)
    (enabled : Bool) (d : List α) (ds : List (List α)) (cache : Cache α) :
    scanFailC test enabled (d :: ds) cache =
      if (cachedTest test enabled cache d).1 = Verdict.FAIL
      then (some d, (cachedTest test enabled cache d).2)
      else scanFailC test enabled ds (cachedTest test enabled cache d).2 := rfl

theorem scanFailC_eq {α : Type} [DecidableEq α] {test : List α → Verdict}
    (enabled : Bool) :
    ∀ (l : List (List α)) (cache : Cache α), cacheValid test cache →
      (scanFailC test enabled l cache).1 = (scanFail test l).1 ∧
        cacheValid test (scanFailC test enabled l cache).2 := by
  intro l
  induction l with
  | nil => intro cache hv; exact ⟨rfl, hv⟩
  | cons d ds ih =>
    intro cache hv
    obtain ⟨hfst, hvalid⟩ := cachedTest_eq hv d
    by_cases hd : test d = Verdict.FAIL
    · have hd' : (cachedTest test enabled cache d).1 = Verdict.FAIL := by
        rw [hfst]; exact hd
      rw [scanFailC_cons, if_pos hd', scanFail_cons, if_pos hd]
      exact ⟨rfl, hvalid⟩
    · have hd' : ¬ (cachedTest test enabled cache d).1 = Verdict.FAIL := by
        rw [hfst]; exact hd
      rw [scanFailC_cons, if_neg hd', scanFail_cons, if_neg hd]
      exact ih _ hvalid

/-- With a valid cache the cached run returns exactly the configuration the
uncached run returns: the cache is transparent. -/
theorem ddworkFuelC_eq {α : Type} [DecidableEq α] (test : List α → Verdict)
    (enabled : Bool) :
    ∀ (fuel : Nat) (c : List α) (n : Nat) (cache : Cache α),
      cacheValid test cache →
      (ddworkFuelC test enabled fuel c n cache).1 = (ddworkFuel test fuel c n).1 := by
  intro fuel
  induction fuel with
  | zero => intro c n cache _; rfl
  | succ fuel ih =>
    intro c n cache hv
    by_cases hlen : c.length ≤ 1
    · rw [ddworkFuel_base test fuel n hlen]
      simp only [ddworkFuelC, if_pos hlen]
    · obtain ⟨hs1eq, hv1⟩ :=
        scanFailC_eq enabled (splitCfg c (clampG n c.length)) cache hv
      cases hs1 : (scanFail test (splitCfg c (clampG n c.length))).1 with
      | some d =>
        rw [ddworkFuel_subset test fuel n hlen hs1]
        simp only [ddworkFuelC, if_neg hlen, hs1eq, hs1]
        exact ih d 2 _ hv1
      | none =>
        obtain ⟨hs2eq, hv2⟩ := scanFailC_eq enabled
          (complementsOf (splitCfg c (clampG n c.length)))
          (scanFailC test enabled (splitCfg c (clampG n c.length)) cache).2 hv1
        cases hs2 : (scanFail test (complementsOf (splitCfg c (clampG n c.length)))).1 with
        | some d =>
          rw [ddworkFuel_complement test fuel n hlen hs1 hs2]
          simp only [ddworkFuelC, if_neg hlen, hs1eq, hs1, hs2eq, hs2]
          exact ih d _ _ hv2
        | none =>
          by_cases hlt : clampG n c.length < c.length
          · rw [ddworkFuel_grow test fuel n hlen hs1 hs2 hlt]
            simp only [ddworkFuelC, if_neg hlen, hs1eq, hs1, hs2eq, hs2, if_pos hlt]
            exact ih c _ _ hv2
          · rw [ddworkFuel_done test fuel n hlen hs1 hs2 hlt]
            simp only [ddworkFuelC, if_neg hlen, hs1eq, hs1, hs2eq, hs2, if_neg hlt]

theorem inTarget_nil (pc : Nat) : InTarget [] pc ↔ False := by
  simp [InTarget]

theorem inTarget_cons (s e : Nat) (rs : List (Nat × Nat)) (pc : Nat) :
    InTarget ((s, e) :: rs) pc ↔ (s ≤ pc ∧ pc ≤ e) ∨ InTarget rs pc := by
  constructor
  · intro ⟨r, hr, hin⟩
    rcases List.mem_cons.mp hr with rfl | hr
    · exact Or.inl hin
    · exact Or.inr ⟨r, hr, hin⟩
  · intro h
    rcases h with h | ⟨r, hr, hin⟩
    · exact ⟨(s, e), List.mem_cons_self _ _, h⟩
    · exact ⟨r, List.mem_cons_of_mem _ hr, hin⟩

theorem inTarget_append (l₁ l₂ : List (Nat × Nat)) (pc : Nat) :
    InTarget (l₁ ++ l₂) pc ↔ InTarget l₁ pc ∨ InTarget l₂ pc := by
  constructor
  · intro ⟨r, hr, hin⟩
    rcases List.mem_append.mp hr with hr | hr
    · exact Or.inl ⟨r, hr, hin⟩
    · exact Or.inr ⟨r, hr, hin⟩
  · intro h
    rcases h with ⟨r, hr, hin⟩ | ⟨r, hr, hin⟩
    · exact ⟨r, List.mem_append_left _ hr, hin⟩
    · exact ⟨r, List.mem_append_right _ hr, hin⟩

theorem inTarget_single (s e : Nat) (pc : Nat) :
    InTarget [(s, e)] pc ↔ s ≤ pc ∧ pc ≤ e := by
  rw [inTarget_cons, inTarget_nil]
  tauto

theorem notInKansas_false_iff (rs : List (Nat × Nat)) (pc : Nat) :
    notInKansas rs pc = false ↔ InTarget rs pc := by
  induction rs with
  | nil => simp [notInKansas, inTarget_nil]
  | cons r rest ih =>
    obtain ⟨s, e⟩ := r
    rw [inTarget_cons]
    by_cases h : s ≤ pc ∧ pc ≤ e
    · simp only [notInKansas, if_pos h]
      tauto
    · simp only [notInKansas, if_neg h, ih]
      tauto

theorem consolidateGo_cons (ps pe s e : Nat) (rest : List (Nat × Nat)) :
    consolidateGo ps pe ((s, e) :: rest) =
      if s ≠ pe then
        (if ps ≠ pe then [(ps, pe)] else []) ++ consolidateGo s e rest
      else consolidateGo ps e rest := rfl

theorem consolidateGo_inTarget :
    ∀ (rest : List (Nat × Nat)) (ps pe : Nat), ps < pe →
      wfChain pe rest = true → ∀ pc,
      (InTarget (consolidateGo ps pe rest) pc ↔
        (ps ≤ pc ∧ pc ≤ pe) ∨ InTarget rest pc) := by
  intro rest
  induction rest with
  | nil =>
    intro ps pe _ _ pc
    rw [show consolidateGo ps pe [] = [(ps, pe)] from rfl, inTarget_single,
      inTarget_nil]
    tauto
  | cons r rest ih =>
    obtain ⟨s, e⟩ := r
    intro ps pe hlt hwf pc
    simp only [wfChain, Bool.and_eq_true, decide_eq_true_eq] at hwf
    obtain ⟨⟨hpes, hse⟩, hrest⟩ := hwf
    rw [inTarget_cons]
    by_cases hcontig : s = pe
    · subst hcontig
      rw [consolidateGo_cons, if_neg (by omega)]
      rw [ih ps e (by omega) hrest pc]
      have hsplit : (ps ≤ pc ∧ pc ≤ e) ↔
          (ps ≤ pc ∧ pc ≤ s) ∨ (s ≤ pc ∧ pc ≤ e) := by omega
      rw [hsplit]
      tauto
    · rw [consolidateGo_cons, if_pos (by omega), if_pos (by omega),
        inTarget_append, inTarget_single, ih s e (by omega) hrest pc]

/-- On a nonempty well-formed range list, consolidation preserves the
in-target classification of every program counter value. -/
theorem consolidate_preserves {rs : List (Nat × Nat)}
    (hwf : wfChain 0 rs = true) (hne : rs ≠ []) (pc : Nat) :
    notInKansas (consolidate rs) pc = notInKansas rs pc := by
  cases rs with
  | nil => exact absurd rfl hne
  | cons r rest =>
    obtain ⟨s, e⟩ := r
    simp only [wfChain, Bool.and_eq_true, decide_eq_true_eq] at hwf
    obtain ⟨⟨_, hse⟩, hrest⟩ := hwf
    have hgo : consolidate ((s, e) :: rest) = consolidateGo s e rest := by
      unfold consolidate
      rw [consolidateGo_cons]
      by_cases hs0 : s = 0
      · subst hs0
        rw [if_neg (by omega)]
      · rw [if_pos (by omega), if_neg (by omega), List.nil_append]
    have hkey : ∀ b₁ b₂ : Bool, (b₁ = false ↔ b₂ = false) → b₁ = b₂ := by
      intro b₁ b₂ h
      cases b₁ <;> cases b₂ <;> simp_all
    apply hkey
    rw [hgo, notInKansas_false_iff, notInKansas_false_iff,
      consolidateGo_inTarget rest s e hse hrest pc, inTarget_cons]

/-! ## Helper lemmas for the ingestion loops -/

theorem toDeltas_mem_fst {α : Type} :
    ∀ (i : Nat) (s : List α) (p : Nat × α), p ∈ toDeltas i s → i ≤ p.1 := by
  intro i s
  induction s generalizing i with
  | nil => intro p hp; simp [toDeltas] at hp
  | cons c cs ih =>
    intro p hp
    rcases List.mem_cons.mp hp with rfl | hp
    · simp
    · have := ih (i + 1) p hp
      omega

theorem toDeltas_ascIdx {α : Type} :
    ∀ (i : Nat) (s : List α), ascIdx (toDeltas i s) := by
  intro i s
  induction s generalizing i with
  | nil => exact List.Pairwise.nil
  | cons c cs ih =>
    refine List.Pairwise.cons ?_ (ih (i + 1))
    intro p hp
    have := toDeltas_mem_fst (i + 1) cs p hp
    show i < p.1
    omega

/-! ## The claims -/

/-- C1, counterexample to the claim as stated: with only `test(U) = FAIL`
assumed, `ddmin` need not return a 1-minimal configuration.  For the
constantly-FAIL oracle on the one-delta universe `[0]`, the universe
FAILs and `ddmin` returns `[0]`, yet the configuration with that single
delta removed — the empty configuration — still FAILs, so the result is
not 1-minimal. -/
theorem claim1_counterexample :
    constFailOracle [0] = Verdict.FAIL ∧
    ddmin constFailOracle [0] = [0] ∧
    constFailOracle (([0] : List Nat).eraseIdx 0) = Verdict.FAIL :=
  ⟨rfl, rfl, rfl⟩

/-- C1 (amended): for every universe `U` and every oracle with
`test(U) = FAIL` that also satisfies the documented §4.1 precondition that
the empty configuration does not FAIL, `ddmin(U)` returns `M ⊆ U`
(an order-preserving subset) with `test(M) = FAIL`, and removing any
single delta from `M` no longer FAILs (1-minimality). -/
theorem claim1_ddmin_one_minimal {α : Type} (test : List α → Verdict)
    (U : List α) (hU : test U = Verdict.FAIL)
    (h0 : test [] ≠ Verdict.FAIL) :
    (ddmin test U).Sublist U ∧ test (ddmin test U) = Verdict.FAIL ∧
    ∀ i, i < (ddmin test U).length →
      test ((ddmin test U).eraseIdx i) ≠ Verdict.FAIL :=
  ddmin_spec test U hU h0

/-- C1 witness: the amended theorem applied to the concrete
`dd-algorithm-example.py` oracle and its 8-delta universe. -/
theorem claim1_witness :
    testDD (toDeltas 0 "12345678".toList) = Verdict.FAIL ∧
    testDD [] ≠ Verdict.FAIL ∧
    ((ddmin testDD (toDeltas 0 "12345678".toList)).Sublist
        (toDeltas 0 "12345678".toList) ∧
      testDD (ddmin testDD (toDeltas 0 "12345678".toList)) = Verdict.FAIL ∧
      ∀ i, i < (ddmin testDD (toDeltas 0 "12345678".toList)).length →
        testDD ((ddmin testDD (toDeltas 0 "12345678".toList)).eraseIdx i) ≠
          Verdict.FAIL) :=
  ⟨by decide, by decide,
    claim1_ddmin_one_minimal testDD (toDeltas 0 "12345678".toList)
      (by decide) (by decide)⟩

/-- C2: `TestDD._test` FAILs iff the payload characters contain exactly
one `'1'`, exactly one `'7'` and exactly one `'8'`; in every other case it
PASSes and it never returns UNRESOLVED; the empty configuration PASSes,
the full universe built from "12345678" FAILs, and `ddmin` with this
oracle returns the 3-element configuration of `'1'`, `'7'`, `'8'` in
original ascending-index order. -/
theorem claim2_testdd_scenario :
    (∀ ds : List (Nat × Char),
      (testDD ds = Verdict.FAIL ↔
        (ds.map Prod.snd).count '1' = 1 ∧ (ds.map Prod.snd).count '7' = 1 ∧
          (ds.map Prod.snd).count '8' = 1) ∧
      testDD ds ≠ Verdict.UNRESOLVED) ∧
    testDD [] = Verdict.PASS ∧
    testDD (toDeltas 0 "12345678".toList) = Verdict.FAIL ∧
    ddmin testDD (toDeltas 0 "12345678".toList) =
      [(0, '1'), (6, '7'), (7, '8')] := by
  refine ⟨?_, by decide, by decide, by decide⟩
  intro ds
  have h1 : ((ds.map Prod.snd).filter interestingByte).count '1' =
      (ds.map Prod.snd).count '1' := List.count_filter (by decide)
  have h7 : ((ds.map Prod.snd).filter interestingByte).count '7' =
      (ds.map Prod.snd).count '7' := List.count_filter (by decide)
  have h8 : ((ds.map Prod.snd).filter interestingByte).count '8' =
      (ds.map Prod.snd).count '8' := List.count_filter (by decide)
  constructor
  · simp only [testDD, h1, h7, h8]
    split_ifs with h
    · exact iff_of_true rfl h
    · exact iff_of_false (by decide) h
  · simp only [testDD]
    split_ifs <;> decide

/-- C3: each embedded oracle — `GdbDD._test` of `dd-ccd2cue.py`,
`MyDD._test` of `dd-socket-example.py` and `GdbDD._test` of
`dd-gdb-example.py` — returns one of the three verdicts PASS, FAIL,
UNRESOLVED on every input; no value outside the closed three-valued
`Verdict` type can leave the oracle boundary. -/
theorem claim3_verdicts_closed :
    (∀ r : List Char, ccd2cueTest r = Verdict.PASS ∨
      ccd2cueTest r = Verdict.FAIL ∨ ccd2cueTest r = Verdict.UNRESOLVED) ∧
    (∀ s : SocketOutcome, socketDDTest s = Verdict.PASS ∨
      socketDDTest s = Verdict.FAIL ∨ socketDDTest s = Verdict.UNRESOLVED) ∧
    (∀ r : List Char, gdbExampleTest r = Verdict.PASS ∨
      gdbExampleTest r = Verdict.FAIL ∨
      gdbExampleTest r = Verdict.UNRESOLVED) := by
  have hv : ∀ v : Verdict, v = Verdict.PASS ∨ v = Verdict.FAIL ∨
      v = Verdict.UNRESOLVED := by
    intro v
    cases v
    · exact Or.inl rfl
    · exact Or.inr (Or.inl rfl)
    · exact Or.inr (Or.inr rfl)
  exact ⟨fun r => hv _, fun s => hv _, fun r => hv _⟩

/-- C4, counterexample to the claim as stated: `MyDD._test` of
`dd-return-code.py` (one of the claim's cited sources) has no exception
handling, so a process-spawn failure at the OS boundary propagates out of
`_test` as an `OSError` instead of producing the UNRESOLVED verdict. -/
theorem claim4_counterexample :
    returnCodeTest (SpawnResult.failedToSpawn []) =
      Except.error (PyError.osError []) ∧
    returnCodeTest (SpawnResult.failedToSpawn []) ≠
      Except.ok (some Verdict.UNRESOLVED) :=
  ⟨rfl, fun h => Except.noConfusion h⟩

/-- C4 (amended): the socket oracle of `dd-socket-example.py` catches
every exception raised inside `_test` and returns UNRESOLVED, but the
return-code oracle of `dd-return-code.py` lets a spawn failure escape as
an exception. -/
theorem claim4_exception_handling :
    (∀ m : List Char,
      socketDDTest (SocketOutcome.raised m) = Verdict.UNRESOLVED) ∧
    (∀ m : List Char,
      returnCodeTest (SpawnResult.failedToSpawn m) =
        Except.error (PyError.osError m)) :=
  ⟨fun _ => rfl, fun _ => rfl⟩

/-- C5 (code bug): no oracle invocation is actually cancelled on timeout.
The ccd2cue watchdog `wait_for_gdb` catches `TimeoutExpired` and merely
`pass`es, so the `gdb.p.kill()` guarded by `returncode is None` is
unreachable on the timeout path — a gdb process still running when the
5-second wait expires is left running (contradicting the comment "If gdb
isn't finished by now... kill it"); and `dd-return-code.py`'s `p.wait()`
carries no timeout at all, so a target that never exits blocks `_test`
forever with no UNRESOLVED verdict. -/
theorem claim5_no_timeout_cancellation :
    waitForGdb (some GdbProcState.hungBeyondTimeout) = WatchdogOutcome.gaveUp ∧
    (∀ s : Option GdbProcState, waitForGdb s ≠ WatchdogOutcome.killedGdb) ∧
    returnCodeTest (SpawnResult.spawned TargetBehavior.runsForever) =
      Except.ok none := by
  refine ⟨rfl, ?_, rfl⟩
  intro s
  rcases s with _ | st
  · simp [waitForGdb]
  · cases st <;> simp [waitForGdb]

/-- C6: for every universe and every (deterministic, pure) oracle, running
`ddmin` with the outcome cache enabled returns exactly the same minimized
configuration as running it with the cache disabled, and with caching
disabled every lookup misses and `record` is a no-op. -/
theorem claim6_cache_transparency {α : Type} [DecidableEq α] :
    (∀ (test : List α → Verdict) (U : List α) (enabled : Bool),
      ddminCached enabled test U = ddmin test U) ∧
    (∀ (cache : Cache α) (c : List α) (v : Verdict),
      cacheLookup false cache c = none ∧ cacheRecord false cache c v = cache) := by
  constructor
  · intro test U enabled
    unfold ddminCached ddmin ddminTrace
    rw [ddworkFuelC_eq test enabled (ddFuel U) U 2 []
      (fun e he => absurd he (List.not_mem_nil e))]
  · intro cache c v
    exact ⟨rfl, rfl⟩

/-- C6 witness: cache transparency at the concrete
`dd-algorithm-example.py` oracle and universe, cache enabled and
disabled. -/
theorem claim6_witness :
    ddminCached true testDD (toDeltas 0 "12345678".toList) =
      ddmin testDD (toDeltas 0 "12345678".toList) ∧
    ddminCached false testDD (toDeltas 0 "12345678".toList) =
      ddmin testDD (toDeltas 0 "12345678".toList) :=
  ⟨claim6_cache_transparency.1 testDD _ true,
    claim6_cache_transparency.1 testDD _ false⟩

/-- C7: the ingested universes (`dd-algorithm-example.py` indexes from 0,
the other scripts from 1) have strictly ascending delta indices, and for
any universe with strictly ascending indices every candidate configuration
handed to `_test` during the run and the configuration returned by `ddmin`
keep strictly ascending indices with no duplicate index. -/
theorem claim7_configs_ascending :
    (∀ s : List Char, ascIdx (toDeltas 0 s)) ∧
    (∀ s : List Char, ascIdx (toDeltas 1 s)) ∧
    (∀ (test : List (Nat × Char) → Verdict) (U : List (Nat × Char)),
      ascIdx U →
      (∀ t ∈ (ddminTrace test U).2, ascIdx t) ∧ ascIdx (ddmin test U) ∧
      ((ddmin test U).map Prod.fst).Nodup) := by
  refine ⟨fun s => toDeltas_ascIdx 0 s, fun s => toDeltas_ascIdx 1 s, ?_⟩
  intro test U hU
  obtain ⟨htrace, hres⟩ := ddmin_sublists test U
  have hasc : ascIdx (ddmin test U) := hU.sublist hres
  refine ⟨fun t ht => hU.sublist (htrace t ht), hasc, ?_⟩
  have hmap : ((ddmin test U).map Prod.fst).Pairwise (· < ·) :=
    List.pairwise_map.mpr hasc
  exact hmap.imp (fun h => Nat.ne_of_lt h)

/-- C7 witness: the invariant applied to the concrete
`dd-algorithm-example.py` oracle and universe. -/
theorem claim7_witness :
    ascIdx (toDeltas 0 "12345678".toList) ∧
    ((∀ t ∈ (ddminTrace testDD (toDeltas 0 "12345678".toList)).2, ascIdx t) ∧
      ascIdx (ddmin testDD (toDeltas 0 "12345678".toList)) ∧
      ((ddmin testDD (toDeltas 0 "12345678".toList)).map Prod.fst).Nodup) :=
  ⟨by decide,
    claim7_configs_ascending.2.2 testDD (toDeltas 0 "12345678".toList)
      (by decide)⟩

/-- C8: `MyDD._test` of `dd-return-code.py` maps the spawned target's
return code to a verdict as PASS iff the code is 0 and FAIL for every
non-zero code; it never produces UNRESOLVED. -/
theorem claim8_return_code_verdict (rc : Int) :
    (returnCodeTest (SpawnResult.spawned (TargetBehavior.exits rc)) =
        Except.ok (some Verdict.PASS) ↔ rc = 0) ∧
    (returnCodeTest (SpawnResult.spawned (TargetBehavior.exits rc)) =
        Except.ok (some Verdict.FAIL) ↔ rc ≠ 0) ∧
    returnCodeTest (SpawnResult.spawned (TargetBehavior.exits rc)) ≠
      Except.ok (some Verdict.UNRESOLVED) := by
  by_cases h : rc = 0 <;> simp [returnCodeTest, h]

/-- C9, counterexample to the claim as stated: consolidation does not
always preserve the set of addresses classified as inside the target.
The degenerate range `(7, 7)` contains address 7 (`start <= pc <= end`),
but `_consolidate_target_ranges` drops it (its predecessor range is
non-contiguous and `(7, 7)` is itself never emitted because
`previous_start == previous_end` when the next range arrives), so after
consolidation address 7 is classified as outside. -/
theorem claim9_counterexample :
    notInKansas [(1, 5), (7, 7), (9, 12)] 7 = false ∧
    notInKansas (consolidate [(1, 5), (7, 7), (9, 12)]) 7 = true ∧
    consolidate [(1, 5), (7, 7), (9, 12)] = [(1, 5), (9, 12)] := by
  decide

/-- C9 (amended): for a nonempty range list whose ranges are nondegenerate
(`start < end`) and sorted with each start at least the previous end —
the shape gdb reports for a loaded executable — consolidation preserves
the classification of every program counter value; the empty range list
becomes the single range `(0, 0)`, which makes address 0 classified as
inside. -/
theorem claim9_consolidate_classification (rs : List (Nat × Nat))
    (hwf : wfChain 0 rs = true) :
    (rs = [] → consolidate rs = [(0, 0)] ∧
      notInKansas (consolidate rs) 0 = false ∧ notInKansas rs 0 = true) ∧
    (rs ≠ [] → ∀ pc,
      notInKansas (consolidate rs) pc = notInKansas rs pc) := by
  constructor
  · rintro rfl
    exact ⟨rfl, rfl, rfl⟩
  · intro hne pc
    exact consolidate_preserves hwf hne pc

/-- C9 witness: the amended theorem at a concrete well-formed range list
with one exactly-contiguous pair. -/
theorem claim9_witness :
    wfChain 0 [(1, 5), (5, 9), (12, 20)] = true ∧
    (([(1, 5), (5, 9), (12, 20)] : List (Nat × Nat)) ≠ [] →
      ∀ pc, notInKansas (consolidate [(1, 5), (5, 9), (12, 20)]) pc =
        notInKansas [(1, 5), (5, 9), (12, 20)] pc) :=
  ⟨by decide,
    (claim9_consolidate_classification [(1, 5), (5, 9), (12, 20)]
      (by decide)).2⟩

/-- C10, counterexample to the claim as stated: when the response does
start with "Breakpoint " but its second token is not an integer,
`set_breakpoint` raises `ValueError` (from `int(parts[1])`), and when the
fourth token is missing it raises `IndexError` — in neither case does it
return a pair, yet it also does not raise `GdbException`. -/
theorem claim10_counterexample :
    hasPrefixChars "Breakpoint ".toList "Breakpoint x at y".toList = true ∧
    set_breakpoint "Breakpoint x at y".toList =
      Except.error PyError.valueError ∧
    set_breakpoint "Breakpoint 1".toList = Except.error PyError.indexError :=
  ⟨by decide, rfl, rfl⟩

/-- C10 (amended): `set_breakpoint` raises `GdbException` (carrying the
response) exactly when the response does not start with "Breakpoint ";
when it does start with that prefix and the stripped response split on
single spaces has a second token that parses as an integer and a fourth
token, it returns the pair of that integer and that fourth token (a
non-integer second token raises `ValueError` and a missing token raises
`IndexError` instead). -/
theorem claim10_set_breakpoint (r : List Char) :
    (set_breakpoint r = Except.error (PyError.gdbException r) ↔
      hasPrefixChars "Breakpoint ".toList r = false) ∧
    (∀ (t1 t3 : List Char) (num : Int),
      hasPrefixChars "Breakpoint ".toList r = true →
      (splitOnSpace (stripChars r))[1]? = some t1 →
      parseIntChars t1 = some num →
      (splitOnSpace (stripChars r))[3]? = some t3 →
      set_breakpoint r = Except.ok (num, t3)) := by
  by_cases hp : hasPrefixChars "Breakpoint ".toList r = true
  · have hne : set_breakpoint r ≠ Except.error (PyError.gdbException r) := by
      unfold set_breakpoint
      rw [if_pos hp]
      rcases h1 : (splitOnSpace (stripChars r))[1]? with _ | t1
      · simp [h1]
      · rcases hn : parseIntChars t1 with _ | num
        · simp [h1, hn]
        · rcases h3 : (splitOnSpace (stripChars r))[3]? with _ | t3
          · simp [h1, hn, h3]
          · simp [h1, hn, h3]
    constructor
    · exact iff_of_false hne
        (fun hff => by rw [hp] at hff; exact Bool.noConfusion hff)
    · intro t1 t3 num _ h1 hn h3
      simp only [set_breakpoint, if_pos hp, h1, hn, h3]
  · have hpf : hasPrefixChars "Breakpoint ".toList r = false := by
      cases hval : hasPrefixChars "Breakpoint ".toList r
      · rfl
      · exact absurd hval hp
    constructor
    · refine iff_of_true ?_ hpf
      unfold set_breakpoint
      rw [if_neg hp]
    · intro t1 t3 num hcontra _ _ _
      exact absurd hcontra hp

/-- C10 witness: the amended theorem at a realistic gdb response. -/
theorem claim10_witness :
    hasPrefixChars "Breakpoint ".toList
      "Breakpoint 2 at 0x401136: file t.c, line 4.".toList = true ∧
    set_breakpoint "Breakpoint 2 at 0x401136: file t.c, line 4.".toList =
      Except.ok ((2 : Int), "0x401136:".toList) :=
  ⟨by decide,
    (claim10_set_breakpoint
        "Breakpoint 2 at 0x401136: file t.c, line 4.".toList).2
      "2".toList "0x401136:".toList 2 (by decide) (by decide) (by decide)
      (by decide)⟩

end DeltaDebugging
